import Mathlib

/-!
Verification of the Three Shapes game engine (`three_shapes_game.py`).

The engine is a fixed-tick simulation: a `Game` owns an active set of
entities plus two pending (staged) sets, reconciles them at the top of
`draw`, and each tick computes all pairwise distances, sorts the directed
records lexicographically, and dispatches `nearby` calls block by block
with per-block early termination.

Modelling conventions:
* Python `set` fields become `Finset E` over an abstract entity type `E`
  with decidable equality (Python object identity).
* Python `assert` failures (fatal errors) become `Option.none` results;
  a successful call returns `some` of the updated state.
* Python floats are modelled by an arbitrary linearly ordered type `D`
  of distance values (the dispatch algorithm only compares distances);
  the concrete Euclidean formula is modelled over a linear ordered field
  with the square root abstracted as a parameter `msqrt`, and separately
  instantiated at `Real.sqrt`.
* The rendering window is out of scope; `draw` takes the liveness flag
  of the window as an input and reports the rendering actions it would
  perform as a list of `RenderOp` values.
-/

namespace ThreeShapes

/-- State of the `Game` class: the active object set, the two pending
    (staged) sets, the single configuration flag, and the game-over flag.
    Field names follow the Python attributes (leading underscores
    dropped); the window, width, height and frame rate are external
    collaborators, kept outside the core state. -/
@[ext]
structure Game (E : Type) [DecidableEq E] where
  active_objs : Finset E
  pending_removes : Finset E
  pending_adds : Finset E
  account_for_radii_in_dist : Bool
  game_over : Bool

variable {E : Type} [DecidableEq E]

instance : DecidableEq (Game E) := fun _ _ =>
  decidable_of_iff _ (Game.ext_iff).symm

/-- Translation of `Game.__init__`: zero objects, empty pending sets,
    the distance configuration flag off, and the game not over. -/
def Game.init : Game E :=
  { active_objs := ∅
    pending_removes := ∅
    pending_adds := ∅
    account_for_radii_in_dist := false
    game_over := false }

/-- Translation of `Game.config_set`.  Only the parameter name
    `"account_for_radii_in_dist"` is recognized; any other name hits
    `assert False`, modelled as `none` (fatal, no successor state). -/
def Game.config_set (g : Game E) (param : String) (val : Bool) : Option (Game E) :=
  if param = "account_for_radii_in_dist" then
    some { g with account_for_radii_in_dist := val }
  else
    none

/-- Translation of `Game.set_game_over`. -/
def Game.set_game_over (g : Game E) : Game E :=
  { g with game_over := true }

/-- Translation of `Game.is_over`. -/
def Game.is_over (g : Game E) : Bool :=
  g.game_over

/-- Translation of `Game.add_obj`: asserts the object is neither active
    nor already pending-add (otherwise fatal), then stages it. -/
def Game.add_obj (g : Game E) (new_obj : E) : Option (Game E) :=
  if new_obj ∈ g.active_objs then none
  else if new_obj ∈ g.pending_adds then none
  else some { g with pending_adds := insert new_obj g.pending_adds }

/-- Translation of `Game.remove_obj`: asserts the object is currently
    active (otherwise fatal), then stages it for removal. -/
def Game.remove_obj (g : Game E) (bad_obj : E) : Option (Game E) :=
  if bad_obj ∈ g.active_objs then
    some { g with pending_removes := insert bad_obj g.pending_removes }
  else
    none

/-- Translation of `Game._execute_adds_and_removes` (leading underscore
    dropped): first subtract the pending removes and clear them, then add
    the pending adds and clear them. -/
def Game.execute_adds_and_removes (g : Game E) : Game E :=
  let g1 := { g with active_objs := g.active_objs \ g.pending_removes
                     pending_removes := (∅ : Finset E) }
  { g1 with active_objs := g1.active_objs ∪ g1.pending_adds
            pending_adds := (∅ : Finset E) }

/-- One rendering action performed by `Game.draw` on the window: a
    `clear()`, the loop drawing every active object (kept as one batch
    action over the set, since Python set iteration order is
    unspecified), or the final `update_frame(frame_rate)`. -/
inductive RenderOp (E : Type) where
  | clear : RenderOp E
  | draw_objs : Finset E → RenderOp E
  | update_frame : RenderOp E

/-- Translation of `Game.draw`: first run the pending adds and removes;
    if the window has been killed, set the game-over flag and return
    without rendering; otherwise clear, draw every active object, and
    present the frame.  The liveness flag of the external window is an
    input; the rendering side effects are returned as data. -/
def Game.draw (g : Game E) (win_killed : Bool) : Game E × List (RenderOp E) :=
  let g1 := g.execute_adds_and_removes
  if win_killed then
    ({ g1 with game_over := true }, [])
  else
    (g1, [RenderOp.clear, RenderOp.draw_objs g1.active_objs,
          RenderOp.update_frame])

/-! ### Proximity dispatch (`do_nearby_calls`)

The Python code snapshots the active set into an indexed list
`positions`, computes one distance per unordered index pair, appends the
two directed records `(i, dist, j)` and `(j, dist, i)`, sorts the whole
record list lexicographically, and then walks the block of `n - 1`
records of each left-hand index in order, stopping a block early when a
`nearby` call returns `False`.

The model works with the indices `0 .. n-1` of the snapshot directly:
`dd i j` stands for the distance value the code computes from
`positions[i]` and `positions[j]`, and the callback
`f left right dist` stands for `positions[left].nearby(positions[right],
dist, self)`.  `D` is the linearly ordered type of distance values. -/

variable {D : Type} [LinearOrder D]

/-- Lexicographic (non-strict) order on directed records
    `(leftIndex, distance, rightIndex)`; this is exactly how Python
    compares the tuples `(i, dist, j)` in `distances.sort()`. -/
def recLe (a b : ℕ × D × ℕ) : Prop :=
  a.1 < b.1 ∨ (a.1 = b.1 ∧ (a.2.1 < b.2.1 ∨ (a.2.1 = b.2.1 ∧ a.2.2 ≤ b.2.2)))

/-- Lexicographic strict order on directed records. -/
def recLt (a b : ℕ × D × ℕ) : Prop :=
  a.1 < b.1 ∨ (a.1 = b.1 ∧ (a.2.1 < b.2.1 ∨ (a.2.1 = b.2.1 ∧ a.2.2 < b.2.2)))

instance : DecidableRel (recLe (D := D)) := fun a b => by
  unfold recLe; infer_instance

instance : DecidableRel (recLt (D := D)) := fun a b => by
  unfold recLt; infer_instance

instance : IsTotal (ℕ × D × ℕ) recLe where
  total a b := by
    unfold recLe
    rcases lt_trichotomy a.1 b.1 with h | h | h
    · exact Or.inl (Or.inl h)
    · rcases lt_trichotomy a.2.1 b.2.1 with h2 | h2 | h2
      · exact Or.inl (Or.inr ⟨h, Or.inl h2⟩)
      · rcases le_total a.2.2 b.2.2 with h3 | h3
        · exact Or.inl (Or.inr ⟨h, Or.inr ⟨h2, h3⟩⟩)
        · exact Or.inr (Or.inr ⟨h.symm, Or.inr ⟨h2.symm, h3⟩⟩)
      · exact Or.inr (Or.inr ⟨h.symm, Or.inl h2⟩)
    · exact Or.inr (Or.inl h)

instance : IsTrans (ℕ × D × ℕ) recLe where
  trans a b c hab hbc := by
    unfold recLe at *
    rcases hab with h1 | ⟨e1, h1⟩
    · rcases hbc with h2 | ⟨e2, h2⟩
      · exact Or.inl (h1.trans h2)
      · exact Or.inl (e2 ▸ h1)
    · rcases hbc with h2 | ⟨e2, h2⟩
      · exact Or.inl (e1 ▸ h2)
      · refine Or.inr ⟨e1.trans e2, ?_⟩
        rcases h1 with h1 | ⟨f1, h1⟩
        · rcases h2 with h2 | ⟨f2, h2⟩
          · exact Or.inl (h1.trans h2)
          · exact Or.inl (f2 ▸ h1)
        · rcases h2 with h2 | ⟨f2, h2⟩
          · exact Or.inl (f1 ▸ h2)
          · exact Or.inr ⟨f1.trans f2, h1.trans h2⟩

/-- The list of directed records built by the double loop of
    `do_nearby_calls`: for every `i < j < n` it appends `(i, dd i j, j)`
    and then `(j, dd i j, i)`, both carrying the one distance value
    computed for the unordered pair. -/
def mkDistances (n : ℕ) (dd : ℕ → ℕ → D) : List (ℕ × D × ℕ) :=
  (List.range n).flatMap (fun i =>
    (List.range' (i + 1) (n - (i + 1))).flatMap (fun j =>
      [(i, dd i j, j), (j, dd i j, i)]))

/-- Translation of `distances.sort()`: a stable sort of the record list
    under the lexicographic tuple order. -/
def sortRecords (l : List (ℕ × D × ℕ)) : List (ℕ × D × ℕ) :=
  List.insertionSort recLe l

/-- The inner delivery loop of `do_nearby_calls` over one block: call
    `f left right dist` on each record in order; when a call returns
    `false`, stop after that call (the record whose call returned
    `false` was still delivered). -/
def deliverBlock (f : ℕ → ℕ → D → Bool) : List (ℕ × D × ℕ) → List (ℕ × D × ℕ)
  | [] => []
  | e :: rest => if f e.1 e.2.2 e.2.1 then e :: deliverBlock f rest else [e]

/-- The slice `distances[(n-1)*i : (n-1)*(i+1)]` of the sorted record
    list that `do_nearby_calls` walks for left-hand index `i`. -/
def nearbyBlock (n : ℕ) (dd : ℕ → ℕ → D) (i : ℕ) : List (ℕ × D × ℕ) :=
  ((sortRecords (mkDistances n dd)).drop ((n - 1) * i)).take (n - 1)

/-- Translation of `Game.do_nearby_calls`, returning the sequence of
    directed records on which `nearby` is actually invoked, in call
    order.  (The two asserts of the Python loop, the record count
    `n*(n-1)` and `k1 == i` inside each block, are proved as theorems
    below.) -/
def do_nearby_calls (n : ℕ) (dd : ℕ → ℕ → D) (f : ℕ → ℕ → D → Bool) :
    List (ℕ × D × ℕ) :=
  (List.range n).flatMap (fun i => deliverBlock f (nearbyBlock n dd i))

/-! ### Geometry: objects, distances, edge calls -/

/-- An entity as seen by the engine loops: its `get_xy()` coordinates
    and its `get_radius()`. -/
structure Obj (D : Type) where
  x : D
  y : D
  radius : D
deriving DecidableEq

/-- The distance computed for one pair in `do_nearby_calls`:
    `sqrt((x1-x2)**2 + (y1-y2)**2)`, minus both radii when the
    `account_for_radii_in_dist` flag is set.  The square root on the
    ordered field `D` is passed in as `msqrt` (instantiated at
    `Real.sqrt` in the theorems about the real formula). -/
def objDist {D : Type} [LinearOrderedField D] (msqrt : D → D) (acct : Bool)
    (o1 o2 : Obj D) : D :=
  let dist := msqrt ((o1.x - o2.x) ^ 2 + (o1.y - o2.y) ^ 2)
  if acct then dist - o1.radius - o2.radius else dist

/-- Translation of the body of the `do_edge_calls` loop for one object:
    the `edge(side, coordinate)` calls raised for this object, in source
    order (left, top, right, bottom).  Coordinates are modelled as
    rationals. -/
def edge_calls_obj (wid hei : ℚ) (o : Obj ℚ) : List (String × ℚ) :=
  (if o.x < o.radius then [("left", 0)] else [])
    ++ (if o.y < o.radius then [("top", 0)] else [])
    ++ (if wid ≤ o.x + o.radius then [("right", wid)] else [])
    ++ (if hei ≤ o.y + o.radius then [("bottom", hei)] else [])

/-- Translation of `Game.do_edge_calls`: the loop body over a snapshot
    of the active objects. -/
def do_edge_calls (wid hei : ℚ) (objs : List (Obj ℚ)) :
    List (Obj ℚ × String × ℚ) :=
  objs.flatMap (fun o => (edge_calls_obj wid hei o).map (fun c => (o, c)))

/-- Position of a side name in the fixed evaluation order of
    `do_edge_calls` (left, top, right, bottom). -/
def sideIndex (s : String) : ℕ :=
  if s = "left" then 0
  else if s = "top" then 1
  else if s = "right" then 2
  else if s = "bottom" then 3
  else 4

/-! ### Lifecycle registry and orchestrator claims -/

/-- Helper: removing a currently active object succeeds and stages it. -/
theorem remove_obj_mem_some (g : Game E) (e : E) (h : e ∈ g.active_objs) :
    g.remove_obj e = some { g with pending_removes := insert e g.pending_removes } := by
  unfold Game.remove_obj
  rw [if_pos h]

/-- C4: reconciliation makes the active set equal to
    (old active set minus pending removes) union pending adds, and
    clears both pending sets; the removals are applied to the active set
    before the additions are (which the set equation reflects: an object
    in both pending sets ends up active). -/
theorem reconcile_applies_removes_then_adds (g : Game E) :
    (g.execute_adds_and_removes).active_objs
        = (g.active_objs \ g.pending_removes) ∪ g.pending_adds ∧
    (g.execute_adds_and_removes).pending_removes = ∅ ∧
    (g.execute_adds_and_removes).pending_adds = ∅ :=
  ⟨rfl, rfl, rfl⟩

/-- C5 (counterexample): calling `add_obj X` and then immediately
    `remove_obj X` in the same tick, before reconciliation, is a fatal
    error, contrary to the claim that it succeeds: with a fresh game and
    `X = 0`, the `add_obj` succeeds but the subsequent `remove_obj`
    hits `assert bad_obj in self._active_objs`. -/
theorem add_then_remove_same_tick_fatal :
    (Game.add_obj (Game.init : Game ℕ) 0).bind
        (fun g1 => Game.remove_obj g1 0) = none ∧
    Game.add_obj (Game.init : Game ℕ) 0 ≠ none := by
  decide

/-- C5 (amended): for an entity X neither active nor pending-add,
    `add_obj X` succeeds and stages X; a `remove_obj X` in the same tick
    before reconciliation is a fatal error (X is not yet active); after
    reconciliation X is active and is then immediately removable. -/
theorem add_then_remove_same_tick_amended (g : Game E) (X : E)
    (hact : X ∉ g.active_objs) (hpend : X ∉ g.pending_adds) :
    ∃ g1, g.add_obj X = some g1 ∧
      g1.remove_obj X = none ∧
      X ∈ (g1.execute_adds_and_removes).active_objs ∧
      ∃ g2, (g1.execute_adds_and_removes).remove_obj X = some g2 := by
  refine ⟨{ g with pending_adds := insert X g.pending_adds }, ?_, ?_, ?_, ?_⟩
  · simp [Game.add_obj, hact, hpend]
  · simp [Game.remove_obj, hact]
  · simp [Game.execute_adds_and_removes]
  · have hx : X ∈ (({ g with pending_adds := insert X g.pending_adds } :
        Game E).execute_adds_and_removes).active_objs := by
      simp [Game.execute_adds_and_removes]
    exact ⟨_, remove_obj_mem_some _ X hx⟩

/-- Witness for the amended C5 at a concrete input. -/
theorem add_then_remove_same_tick_amended_witness :
    (0 : ℕ) ∉ (Game.init : Game ℕ).active_objs ∧
    ∃ g1, (Game.init : Game ℕ).add_obj 0 = some g1 ∧
      g1.remove_obj 0 = none ∧
      (0 : ℕ) ∈ (g1.execute_adds_and_removes).active_objs ∧
      ∃ g2, (g1.execute_adds_and_removes).remove_obj 0 = some g2 :=
  ⟨by decide,
   add_then_remove_same_tick_amended (Game.init : Game ℕ) 0
     (by decide) (by decide)⟩

/-- C6: `add_obj e` is fatal exactly when e is already active or already
    pending-add, and otherwise only stages e, leaving the active set
    untouched; `remove_obj e` is fatal exactly when e is not active, and
    otherwise stages e for removal, a repeated call in the same tick
    being a no-op rather than an error. -/
theorem add_remove_error_conditions (g : Game E) (e : E) :
    (g.add_obj e = none ↔ (e ∈ g.active_objs ∨ e ∈ g.pending_adds)) ∧
    (∀ g1, g.add_obj e = some g1 →
      g1.active_objs = g.active_objs ∧
      g1.pending_adds = insert e g.pending_adds ∧
      g1.pending_removes = g.pending_removes) ∧
    (g.remove_obj e = none ↔ e ∉ g.active_objs) ∧
    (∀ g1, g.remove_obj e = some g1 →
      g1.active_objs = g.active_objs ∧
      g1.pending_removes = insert e g.pending_removes ∧
      g1.pending_adds = g.pending_adds) ∧
    (e ∈ g.active_objs → e ∈ g.pending_removes → g.remove_obj e = some g) := by
  refine ⟨?_, ?_, ?_, ?_, ?_⟩
  · unfold Game.add_obj
    by_cases h1 : e ∈ g.active_objs <;> by_cases h2 : e ∈ g.pending_adds <;>
      simp [h1, h2]
  · intro g1 h
    unfold Game.add_obj at h
    by_cases h1 : e ∈ g.active_objs <;> by_cases h2 : e ∈ g.pending_adds <;>
      simp [h1, h2] at h
    exact ⟨by rw [← h], by rw [← h], by rw [← h]⟩
  · unfold Game.remove_obj
    by_cases h1 : e ∈ g.active_objs <;> simp [h1]
  · intro g1 h
    unfold Game.remove_obj at h
    by_cases h1 : e ∈ g.active_objs <;> simp [h1] at h
    exact ⟨by rw [← h], by rw [← h], by rw [← h]⟩
  · intro h1 h2
    unfold Game.remove_obj
    rw [if_pos h1]
    congr 1
    cases g
    simp only [Finset.insert_eq_self.mpr h2]

/-- Witness for C6 at a concrete input. -/
theorem add_remove_error_conditions_witness :
    ((Game.init : Game ℕ).add_obj 0 = none ↔
      ((0 : ℕ) ∈ (Game.init : Game ℕ).active_objs ∨
       (0 : ℕ) ∈ (Game.init : Game ℕ).pending_adds)) ∧
    (∀ g1, (Game.init : Game ℕ).add_obj 0 = some g1 →
      g1.active_objs = (Game.init : Game ℕ).active_objs ∧
      g1.pending_adds = insert 0 (Game.init : Game ℕ).pending_adds ∧
      g1.pending_removes = (Game.init : Game ℕ).pending_removes) ∧
    ((Game.init : Game ℕ).remove_obj 0 = none ↔
      (0 : ℕ) ∉ (Game.init : Game ℕ).active_objs) ∧
    (∀ g1, (Game.init : Game ℕ).remove_obj 0 = some g1 →
      g1.active_objs = (Game.init : Game ℕ).active_objs ∧
      g1.pending_removes = insert 0 (Game.init : Game ℕ).pending_removes ∧
      g1.pending_adds = (Game.init : Game ℕ).pending_adds) ∧
    ((0 : ℕ) ∈ (Game.init : Game ℕ).active_objs →
      (0 : ℕ) ∈ (Game.init : Game ℕ).pending_removes →
      (Game.init : Game ℕ).remove_obj 0 = some (Game.init : Game ℕ)) :=
  add_remove_error_conditions (Game.init : Game ℕ) 0

/-- C8: `config_set` with the recognized name sets the boolean option to
    the given value; with any other name it is a fatal error and no
    successor state exists (the engine state is left unchanged). -/
theorem config_set_spec (g : Game E) (v : Bool) :
    g.config_set "account_for_radii_in_dist" v
        = some { g with account_for_radii_in_dist := v } ∧
    (∀ p, p ≠ "account_for_radii_in_dist" → g.config_set p v = none) := by
  constructor
  · simp [Game.config_set]
  · intro p hp
    simp [Game.config_set, hp]

/-- Witness for C8 at the concrete unknown option of the spec. -/
theorem config_set_spec_witness :
    (Game.init : Game ℕ).config_set "account_for_radii_in_dist" true
        = some { (Game.init : Game ℕ) with account_for_radii_in_dist := true } ∧
    (Game.init : Game ℕ).config_set "unknownOption" true = none :=
  ⟨(config_set_spec (Game.init : Game ℕ) true).1,
   (config_set_spec (Game.init : Game ℕ) true).2 "unknownOption" (by decide)⟩

/-- C9: entering a tick with a dead rendering surface still applies the
    pending-set reconciliation first, then sets the game-over flag and
    skips every remaining step (no clear, no per-object draw, no frame
    present), returning normally. -/
theorem draw_dead_surface_spec (g : Game E) :
    (g.draw true).1.active_objs
        = (g.active_objs \ g.pending_removes) ∪ g.pending_adds ∧
    (g.draw true).1.pending_removes = ∅ ∧
    (g.draw true).1.pending_adds = ∅ ∧
    (g.draw true).1.is_over = true ∧
    (g.draw true).2 = [] :=
  ⟨rfl, rfl, rfl, rfl, rfl⟩

/-- C10: the game-over flag is monotone: once `is_over` is true, no
    engine operation (set_game_over, reconciliation, a tick of `draw`
    with either surface liveness, `config_set`, `add_obj`, `remove_obj`)
    makes it false again; only construction produces a false value. -/
theorem game_over_monotone :
    (∀ g : Game E, g.is_over = true →
      g.set_game_over.is_over = true ∧
      (g.execute_adds_and_removes).is_over = true ∧
      (∀ win_killed : Bool, (g.draw win_killed).1.is_over = true) ∧
      (∀ p v g1, g.config_set p v = some g1 → g1.is_over = true) ∧
      (∀ e g1, g.add_obj e = some g1 → g1.is_over = true) ∧
      (∀ e g1, g.remove_obj e = some g1 → g1.is_over = true)) ∧
    (Game.init : Game E).is_over = false := by
  constructor
  · intro g hg
    refine ⟨rfl, hg, ?_, ?_, ?_, ?_⟩
    · intro wk
      cases wk
      · exact hg
      · rfl
    · intro p v g1 h
      unfold Game.config_set at h
      by_cases hp : p = "account_for_radii_in_dist" <;> simp [hp] at h
      rw [← h]
      exact hg
    · intro e g1 h
      unfold Game.add_obj at h
      by_cases h1 : e ∈ g.active_objs <;> by_cases h2 : e ∈ g.pending_adds <;>
        simp [h1, h2] at h
      rw [← h]
      exact hg
    · intro e g1 h
      unfold Game.remove_obj at h
      by_cases h1 : e ∈ g.active_objs <;> simp [h1] at h
      rw [← h]
      exact hg
  · rfl

/-- Witness for C10 at a concrete game whose flag is set. -/
theorem game_over_monotone_witness :
    (Game.init : Game ℕ).set_game_over.is_over = true ∧
    ((Game.init : Game ℕ).set_game_over.set_game_over.is_over = true ∧
      ((Game.init : Game ℕ).set_game_over.execute_adds_and_removes).is_over
          = true ∧
      (∀ win_killed : Bool,
        ((Game.init : Game ℕ).set_game_over.draw win_killed).1.is_over
            = true) ∧
      (∀ p v g1, (Game.init : Game ℕ).set_game_over.config_set p v = some g1 →
        g1.is_over = true) ∧
      (∀ e g1, (Game.init : Game ℕ).set_game_over.add_obj e = some g1 →
        g1.is_over = true) ∧
      (∀ e g1, (Game.init : Game ℕ).set_game_over.remove_obj e = some g1 →
        g1.is_over = true)) :=
  ⟨by decide,
   (game_over_monotone (E := ℕ)).1 (Game.init : Game ℕ).set_game_over
     (by decide)⟩

/-- C7: for an entity with current position and radius, the boundary
    phase raises left, top, right and bottom edge calls under exactly
    the four stated conditions (right and bottom include the exact
    touch), the four checks are independent of one another, and within
    one entity the raised calls come in the order left, top, right,
    bottom (so a corner entity receives two calls in one tick). -/
theorem edge_calls_spec (wid hei : ℚ) (o : Obj ℚ) :
    ((("left", (0 : ℚ)) ∈ edge_calls_obj wid hei o) ↔ o.x < o.radius) ∧
    ((("top", (0 : ℚ)) ∈ edge_calls_obj wid hei o) ↔ o.y < o.radius) ∧
    ((("right", wid) ∈ edge_calls_obj wid hei o) ↔ wid ≤ o.x + o.radius) ∧
    ((("bottom", hei) ∈ edge_calls_obj wid hei o) ↔ hei ≤ o.y + o.radius) ∧
    List.Pairwise (fun a b => sideIndex a.1 < sideIndex b.1)
      (edge_calls_obj wid hei o) := by
  unfold edge_calls_obj
  split_ifs <;> simp_all [sideIndex]

/-! ### Proximity dispatch: helper lemmas -/

/-- Bridge between sums over `List.range` and `Finset.range`. -/
theorem sum_map_range_eq (f : ℕ → ℕ) (n : ℕ) :
    ((List.range n).map f).sum = ∑ i ∈ Finset.range n, f i := by
  induction n with
  | zero => simp
  | succ n ih =>
    rw [List.range_succ, List.map_append, List.sum_append,
      Finset.sum_range_succ, ih]
    simp

/-- Sums of pointwise additions of list maps split. -/
theorem sum_map_add {α : Type} (l : List α) (f g : α → ℕ) :
    (l.map (fun x => f x + g x)).sum = (l.map f).sum + (l.map g).sum := by
  induction l with
  | nil => rfl
  | cons x t ih =>
    simp only [List.map_cons, List.sum_cons, ih]
    omega

/-- The double loop of `do_nearby_calls` emits `n * (n - 1)` directed
    records: this is the first assert of the Python loop. -/
theorem mkDistances_length {D : Type} [LinearOrder D] (n : ℕ) (dd : ℕ → ℕ → D) :
    (mkDistances n dd).length = n * (n - 1) := by
  unfold mkDistances
  rw [List.length_flatMap]
  have h1 : (List.range n).map (List.length ∘ fun i =>
        (List.range' (i + 1) (n - (i + 1))).flatMap (fun j =>
          [(i, dd i j, j), (j, dd i j, i)]))
      = (List.range n).map (fun i => 2 * (n - (i + 1))) := by
    apply List.map_congr_left
    intro i _
    simp only [Function.comp_apply, List.length_flatMap]
    have h2 : (List.range' (i + 1) (n - (i + 1))).map (List.length ∘ fun j =>
          [(i, dd i j, j), (j, dd i j, i)])
        = (List.range' (i + 1) (n - (i + 1))).map (fun _ => 2) := by
      apply List.map_congr_left
      intro j _
      rfl
    rw [h2, List.map_const', List.sum_replicate, List.length_range',
      smul_eq_mul]
    omega
  rw [h1, sum_map_range_eq]
  have h3 : ∀ i ∈ Finset.range n, 2 * (n - (i + 1)) = 2 * ((n - 1) - i) := by
    intro i hi
    rw [Finset.mem_range] at hi
    omega
  rw [Finset.sum_congr rfl h3, ← Finset.mul_sum]
  have h4 : ∑ i ∈ Finset.range n, ((n - 1) - i) = ∑ i ∈ Finset.range n, i :=
    Finset.sum_range_reflect id n
  rw [h4, two_mul, ← Nat.mul_two, Finset.sum_range_id_mul_two]

/-- Both directed records of an unordered pair are in the record list,
    carrying the same distance value. -/
theorem mkDistances_mem_pair {D : Type} [LinearOrder D] (n : ℕ)
    (dd : ℕ → ℕ → D) (i j : ℕ) (hij : i < j) (hj : j < n) :
    (i, dd i j, j) ∈ mkDistances n dd ∧ (j, dd i j, i) ∈ mkDistances n dd := by
  have hmem : ∀ e ∈ [(i, dd i j, j), (j, dd i j, i)], e ∈ mkDistances n dd := by
    intro e he
    unfold mkDistances
    rw [List.mem_flatMap]
    refine ⟨i, ?_, ?_⟩
    · rw [List.mem_range]
      omega
    · rw [List.mem_flatMap]
      refine ⟨j, ?_, he⟩
      rw [List.mem_range'_1]
      omega
  exact ⟨hmem _ (by simp), hmem _ (by simp)⟩

/-- A callback that keeps returning `true` lets the block loop deliver
    the whole block. -/
theorem deliverBlock_all_true {D : Type} [LinearOrder D]
    (f : ℕ → ℕ → D → Bool) (l : List (ℕ × D × ℕ))
    (h : ∀ e ∈ l, f e.1 e.2.2 e.2.1 = true) : deliverBlock f l = l := by
  induction l with
  | nil => rfl
  | cons e rest ih =>
    have he := h e (List.mem_cons_self e rest)
    simp [deliverBlock, he,
      ih (fun x hx => h x (List.mem_cons_of_mem e hx))]

/-- When the callback first returns `false` on record `c`, the block
    loop delivers the preceding records and `c` itself, then stops. -/
theorem deliverBlock_break {D : Type} [LinearOrder D]
    (f : ℕ → ℕ → D → Bool) (pre : List (ℕ × D × ℕ)) (c : ℕ × D × ℕ)
    (rest : List (ℕ × D × ℕ))
    (hpre : ∀ e ∈ pre, f e.1 e.2.2 e.2.1 = true)
    (hc : f c.1 c.2.2 c.2.1 = false) :
    deliverBlock f (pre ++ c :: rest) = pre ++ [c] := by
  induction pre with
  | nil => simp [deliverBlock, hc]
  | cons e p ih =>
    have he := hpre e (List.mem_cons_self e p)
    simp [deliverBlock, he,
      ih (fun x hx => hpre x (List.mem_cons_of_mem e hx))]

/-- Every record the block loop delivers comes from the block. -/
theorem deliverBlock_subset {D : Type} [LinearOrder D]
    (f : ℕ → ℕ → D → Bool) (l : List (ℕ × D × ℕ)) (e : ℕ × D × ℕ)
    (h : e ∈ deliverBlock f l) : e ∈ l := by
  induction l with
  | nil => simp [deliverBlock] at h
  | cons a t ih =>
    unfold deliverBlock at h
    by_cases hf : f a.1 a.2.2 a.2.1 = true
    · rw [if_pos hf] at h
      rcases List.mem_cons.mp h with h | h
      · exact h ▸ List.mem_cons_self a t
      · exact List.mem_cons_of_mem a (ih h)
    · rw [if_neg hf] at h
      rcases List.mem_cons.mp h with h | h
      · exact h ▸ List.mem_cons_self a t
      · exact absurd h (List.not_mem_nil e)

/-- Concatenating the `n` consecutive slices of width `m` of a list
    reassembles its first `m * n` elements. -/
theorem flatMap_slices {α : Type} (m n : ℕ) (l : List α) :
    (List.range n).flatMap (fun i => (l.drop (m * i)).take m)
      = l.take (m * n) := by
  induction n with
  | zero => simp
  | succ n ih =>
    rw [List.range_succ, List.flatMap_append, ih, Nat.mul_succ, List.take_add]
    simp

/-- Every record of the inner loop for outer index `i` has `i` as the
    smaller of its two entity indices. -/
theorem mem_inner_min {D : Type} [LinearOrder D] (n i : ℕ) (dd : ℕ → ℕ → D) :
    ∀ e ∈ (List.range' (i + 1) (n - (i + 1))).flatMap (fun j =>
        [(i, dd i j, j), (j, dd i j, i)]),
      min e.1 e.2.2 = i := by
  intro e he
  rw [List.mem_flatMap] at he
  obtain ⟨j, hj, he⟩ := he
  rw [List.mem_range'_1] at hj
  rcases List.mem_cons.mp he with rfl | he
  · show min i j = i
    omega
  · rcases List.mem_cons.mp he with rfl | he
    · show min j i = i
      omega
    · exact absurd he (List.not_mem_nil e)

/-- The record list contains no duplicate records: distinct unordered
    pairs give records with distinct index sets, and the two records of
    one pair point in opposite directions. -/
theorem mkDistances_nodup {D : Type} [LinearOrder D] (n : ℕ) (dd : ℕ → ℕ → D) :
    (mkDistances n dd).Nodup := by
  unfold mkDistances
  rw [List.nodup_flatMap]
  constructor
  · intro i _
    rw [List.nodup_flatMap]
    constructor
    · intro j hj
      rw [List.mem_range'_1] at hj
      simp only [List.nodup_cons, List.mem_singleton, List.nodup_nil,
        List.not_mem_nil, not_false_iff, and_true]
      intro h
      have h1 : i = j := congrArg Prod.fst h
      omega
    · have hlt := List.pairwise_lt_range' (i + 1) (n - (i + 1))
      refine hlt.imp ?_
      intro j1 j2 hj12
      intro e he1 he2
      simp only [List.mem_cons, List.mem_singleton, List.not_mem_nil,
        or_false] at he1 he2
      rcases he1 with rfl | rfl
      · rcases he2 with h | h
        · have h3 : j1 = j2 := congrArg (fun x : ℕ × D × ℕ => x.2.2) h
          omega
        · have h3 : i = j2 := congrArg (fun x : ℕ × D × ℕ => x.1) h
          have h4 : j1 = i := congrArg (fun x : ℕ × D × ℕ => x.2.2) h
          omega
      · rcases he2 with h | h
        · have h3 : j1 = i := congrArg (fun x : ℕ × D × ℕ => x.1) h
          have h4 : i = j2 := congrArg (fun x : ℕ × D × ℕ => x.2.2) h
          omega
        · have h3 : j1 = j2 := congrArg (fun x : ℕ × D × ℕ => x.1) h
          omega
  · have hlt := List.pairwise_lt_range n
    refine hlt.imp ?_
    intro i1 i2 hi12
    intro e he1 he2
    have h1 := mem_inner_min n i1 dd e he1
    have h2 := mem_inner_min n i2 dd e he2
    omega

/-- A strictly smaller record in the non-strict lexicographic order is
    strictly smaller once the two records are known to differ. -/
theorem recLt_of_recLe_ne {D : Type} [LinearOrder D] (a b : ℕ × D × ℕ)
    (h : recLe a b) (hne : a ≠ b) : recLt a b := by
  unfold recLe at h
  unfold recLt
  rcases h with h | ⟨e1, h⟩
  · exact Or.inl h
  rcases h with h | ⟨e2, h⟩
  · exact Or.inr ⟨e1, Or.inl h⟩
  rcases lt_or_eq_of_le h with h3 | h3
  · exact Or.inr ⟨e1, Or.inr ⟨e2, h3⟩⟩
  · exfalso
    apply hne
    obtain ⟨a1, a2, a3⟩ := a
    obtain ⟨b1, b2, b3⟩ := b
    simp only [Prod.mk.injEq]
    exact ⟨e1, e2, h3⟩

/-- The sorted record list is a permutation of the record list. -/
theorem sortRecords_perm {D : Type} [LinearOrder D] (l : List (ℕ × D × ℕ)) :
    (sortRecords l).Perm l :=
  List.perm_insertionSort recLe l

/-- The sorted record list is sorted in the lexicographic order. -/
theorem sortRecords_sorted {D : Type} [LinearOrder D] (l : List (ℕ × D × ℕ)) :
    List.Pairwise recLe (sortRecords l) :=
  List.sorted_insertionSort recLe l

/-- With a callback that always answers `true`, the dispatch loop walks
    exactly the sorted record list. -/
theorem do_nearby_calls_all_true {D : Type} [LinearOrder D] (n : ℕ)
    (dd : ℕ → ℕ → D) :
    do_nearby_calls n dd (fun _ _ _ => true) = sortRecords (mkDistances n dd) := by
  unfold do_nearby_calls nearbyBlock
  have h1 : ∀ i : ℕ,
      deliverBlock (fun _ _ _ => true)
        (((sortRecords (mkDistances n dd)).drop ((n - 1) * i)).take (n - 1))
      = ((sortRecords (mkDistances n dd)).drop ((n - 1) * i)).take (n - 1) :=
    fun i => deliverBlock_all_true _ _ (fun _ _ => rfl)
  simp only [h1]
  rw [flatMap_slices, List.take_of_length_le]
  rw [(sortRecords_perm (mkDistances n dd)).length_eq, mkDistances_length]
  exact Nat.le_of_eq (Nat.mul_comm n (n - 1))

/-! ### Claims about the proximity dispatch -/

/-- C1: with `n` active entities, the sequence of directed records the
    dispatch delivers (when no callback terminates early) is the
    lexicographic sort of all `(leftIndex, distance, rightIndex)`
    records: it is a permutation of the full record list and is
    strictly increasing in the lexicographic order, so records sharing a
    left-hand entity are contiguous, distances are non-decreasing
    within a block, and equal distances come in ascending right-hand
    index order. -/
theorem dispatch_delivers_lex_sort :
    ∀ (D : Type) [LinearOrder D] (n : ℕ) (dd : ℕ → ℕ → D),
      do_nearby_calls n dd (fun _ _ _ => true)
          = sortRecords (mkDistances n dd) ∧
      (do_nearby_calls n dd (fun _ _ _ => true)).Perm (mkDistances n dd) ∧
      List.Pairwise recLt (do_nearby_calls n dd (fun _ _ _ => true)) := by
  intro D _ n dd
  have hall := do_nearby_calls_all_true n dd
  refine ⟨hall, ?_, ?_⟩
  · rw [hall]
    exact sortRecords_perm (mkDistances n dd)
  · rw [hall]
    have hnd : (sortRecords (mkDistances n dd)).Nodup :=
      (sortRecords_perm (mkDistances n dd)).nodup_iff.mpr
        (mkDistances_nodup n dd)
    have hne : List.Pairwise (fun a b : ℕ × D × ℕ => a ≠ b)
        (sortRecords (mkDistances n dd)) := hnd
    exact ((sortRecords_sorted (mkDistances n dd)).and hne).imp
      (fun h => recLt_of_recLe_ne _ _ h.1 h.2)

/-- C2: one dispatch pass over `n` active entities produces exactly
    `n * (n - 1)` directed records; for every unordered pair of distinct
    indices both directed records appear, carrying the same distance
    value; and the distance formula (with the radius adjustment enabled)
    is the Euclidean distance minus both radii, which is symmetric in
    the pair and may go negative (it is not clamped). -/
theorem dispatch_record_count_and_symmetry :
    (∀ (D : Type) [LinearOrder D] (n : ℕ) (dd : ℕ → ℕ → D),
      (mkDistances n dd).length = n * (n - 1) ∧
      ∀ i j, i < j → j < n →
        (i, dd i j, j) ∈ mkDistances n dd ∧
        (j, dd i j, i) ∈ mkDistances n dd) ∧
    (∀ (D : Type) [LinearOrderedField D] (msqrt : D → D) (acct : Bool)
      (o1 o2 : Obj D), objDist msqrt acct o1 o2 = objDist msqrt acct o2 o1) ∧
    (∀ o1 o2 : Obj ℝ,
      objDist Real.sqrt true o1 o2
        = Real.sqrt ((o1.x - o2.x) ^ 2 + (o1.y - o2.y) ^ 2)
            - o1.radius - o2.radius) ∧
    (∃ o1 o2 : Obj ℝ, objDist Real.sqrt true o1 o2 < 0) := by
  refine ⟨?_, ?_, ?_, ?_⟩
  · intro D _ n dd
    exact ⟨mkDistances_length n dd,
      fun i j hij hj => mkDistances_mem_pair n dd i j hij hj⟩
  · intro D _ msqrt acct o1 o2
    unfold objDist
    have h : (o1.x - o2.x) ^ 2 + (o1.y - o2.y) ^ 2
        = (o2.x - o1.x) ^ 2 + (o2.y - o1.y) ^ 2 := by
      ring
    rw [h]
    cases acct
    · rfl
    · simp only [if_pos]
      ring
  · intro o1 o2
    rfl
  · refine ⟨⟨0, 0, 1⟩, ⟨0, 0, 1⟩, ?_⟩
    unfold objDist
    norm_num [Real.sqrt_zero]

/-- Witness for C2 at a concrete population of two entities. -/
theorem dispatch_record_count_and_symmetry_witness :
    ((0 : ℕ), (7 : ℕ), (1 : ℕ)) ∈ mkDistances 2 (fun _ _ => (7 : ℕ)) ∧
    ((1 : ℕ), (7 : ℕ), (0 : ℕ)) ∈ mkDistances 2 (fun _ _ => (7 : ℕ)) :=
  (dispatch_record_count_and_symmetry.1 ℕ 2 (fun _ _ => 7)).2 0 1
    (by decide) (by decide)

/-! ### Block structure of the sorted record list -/

/-- Summing the indicator of one value over a list counts it. -/
theorem sum_map_indicator (l : List ℕ) (a : ℕ) :
    (l.map (fun j => if j = a then 1 else 0)).sum = l.count a := by
  induction l with
  | nil => rfl
  | cons x t ih =>
    rw [List.map_cons, List.sum_cons, ih, List.count_cons]
    by_cases hx : x = a
    · simp [hx, Nat.add_comm]
    · simp [hx]

/-- Counting records by left index inside one inner loop: the outer
    index `i` contributes `n - (i+1)` records with left index `i`, and
    each inner index `j > i` contributes one record with left index
    `j`. -/
theorem inner_countP_fst {D : Type} [LinearOrder D] (n i a : ℕ)
    (dd : ℕ → ℕ → D) (ha : a < n) :
    ((List.range' (i + 1) (n - (i + 1))).flatMap (fun j =>
        [(i, dd i j, j), (j, dd i j, i)])).countP (fun e => e.1 == a)
      = (if i = a then n - (i + 1) else 0) + (if i < a then 1 else 0) := by
  rw [List.countP_flatMap]
  have h1 : (List.range' (i + 1) (n - (i + 1))).map
        (List.countP (fun e => (e.1 == a : Bool)) ∘ fun j =>
          [(i, dd i j, j), (j, dd i j, i)])
      = (List.range' (i + 1) (n - (i + 1))).map
        (fun j => (if i = a then 1 else 0) + (if j = a then 1 else 0)) := by
    apply List.map_congr_left
    intro j _
    simp only [Function.comp_apply, List.countP_cons, List.countP_nil]
    by_cases h2 : i = a <;> by_cases h3 : j = a <;>
      simp [h2, h3]
  rw [h1, sum_map_add]
  have h4 : ((List.range' (i + 1) (n - (i + 1))).map
        (fun _ => if i = a then 1 else 0)).sum
      = if i = a then n - (i + 1) else 0 := by
    rw [List.map_const', List.sum_replicate, List.length_range', smul_eq_mul]
    by_cases h2 : i = a <;> simp [h2]
  have h5 : ((List.range' (i + 1) (n - (i + 1))).map
        (fun j => if j = a then 1 else 0)).sum = if i < a then 1 else 0 := by
    rw [sum_map_indicator]
    by_cases h6 : i < a
    · rw [if_pos h6]
      exact List.count_eq_one_of_mem (List.nodup_range' _ _)
        (by rw [List.mem_range'_1]; omega)
    · rw [if_neg h6]
      exact List.count_eq_zero_of_not_mem
        (by rw [List.mem_range'_1]; omega)
  rw [h4, h5]

/-- For every left index `a < n` there are exactly `n - 1` directed
    records with left component `a` (one per partner). -/
theorem mkDistances_countP_fst {D : Type} [LinearOrder D] (n a : ℕ)
    (ha : a < n) (dd : ℕ → ℕ → D) :
    (mkDistances n dd).countP (fun e => e.1 == a) = n - 1 := by
  unfold mkDistances
  rw [List.countP_flatMap]
  have h1 : (List.range n).map
        (List.countP (fun e => (e.1 == a : Bool)) ∘ fun i =>
          (List.range' (i + 1) (n - (i + 1))).flatMap (fun j =>
            [(i, dd i j, j), (j, dd i j, i)]))
      = (List.range n).map
        (fun i => (if i = a then n - (i + 1) else 0) +
          (if i < a then 1 else 0)) := by
    apply List.map_congr_left
    intro i _
    exact inner_countP_fst n i a dd ha
  rw [h1, sum_map_add, sum_map_range_eq, sum_map_range_eq]
  rw [Finset.sum_ite_eq' (Finset.range n) a (fun i => n - (i + 1))]
  rw [if_pos (Finset.mem_range.mpr ha)]
  have h2 : (∑ i ∈ Finset.range n, if i < a then 1 else 0)
      = ((Finset.range n).filter (fun i => i < a)).card := by
    rw [Finset.sum_boole]
    simp
  have h3 : (Finset.range n).filter (fun i => i < a) = Finset.range a := by
    apply Finset.ext
    intro x
    simp only [Finset.mem_filter, Finset.mem_range]
    omega
  rw [h2, h3, Finset.card_range]
  omega

/-- Adding one step to a strict left-index bound adds the count of the
    boundary left index. -/
theorem countP_fst_lt_step {D : Type} [LinearOrder D]
    (l : List (ℕ × D × ℕ)) (i : ℕ) :
    l.countP (fun e => decide (e.1 < i + 1))
      = l.countP (fun e => decide (e.1 < i)) + l.countP (fun e => e.1 == i) := by
  induction l with
  | nil => rfl
  | cons x t ih =>
    simp only [List.countP_cons, ih]
    rcases Nat.lt_trichotomy x.1 i with h | h | h
    · have h1 : x.1 < i + 1 := by omega
      have h2 : x.1 ≠ i := by omega
      simp [h, h1, h2]
      omega
    · simp [h]
      omega
    · have h1 : ¬(x.1 < i + 1) := by omega
      have h2 : ¬(x.1 < i) := by omega
      have h3 : x.1 ≠ i := by omega
      simp [h1, h2, h3]

/-- The records strictly left of index `i` number `(n - 1) * i`. -/
theorem mkDistances_countP_lt {D : Type} [LinearOrder D] (n i : ℕ)
    (hi : i ≤ n) (dd : ℕ → ℕ → D) :
    (mkDistances n dd).countP (fun e => decide (e.1 < i)) = (n - 1) * i := by
  induction i with
  | zero => simp
  | succ i ih =>
    rw [countP_fst_lt_step, ih (by omega),
      mkDistances_countP_fst n i (by omega) dd, Nat.mul_succ]

/-- In a list sorted for `r`, a predicate closed under moving left along
    `r` is decided by position: `takeWhile` agrees with `filter`, and
    everything after the `takeWhile` prefix fails the predicate. -/
theorem sorted_takeWhile_filter {α : Type} {r : α → α → Prop} {p : α → Bool}
    (hcl : ∀ a b, r a b → p b = true → p a = true) :
    ∀ {l : List α}, l.Pairwise r →
      (l.takeWhile p = l.filter p ∧ ∀ e ∈ l.dropWhile p, p e = false) := by
  intro l hl
  induction l with
  | nil => exact ⟨rfl, by simp⟩
  | cons x t ih =>
    rw [List.pairwise_cons] at hl
    obtain ⟨hx, ht⟩ := hl
    obtain ⟨ih1, ih2⟩ := ih ht
    by_cases hp : p x = true
    · rw [List.takeWhile_cons, List.dropWhile_cons, List.filter_cons,
        if_pos hp, if_pos hp, if_pos hp, ih1]
      exact ⟨rfl, ih2⟩
    · have hte : ∀ e ∈ t, p e = false := by
        intro e he
        by_contra hcon
        exact hp (hcl x e (hx e he)
          (by revert hcon; cases p e <;> simp))
      rw [List.takeWhile_cons, List.dropWhile_cons, if_neg hp, if_neg hp]
      constructor
      · rw [List.filter_cons, if_neg hp, List.filter_eq_nil_iff.mpr
          (fun a ha => by rw [hte a ha]; simp)]
      · intro e he
        rcases List.mem_cons.mp he with rfl | he
        · revert hp
          cases p e <;> simp
        · exact hte e he

/-- Every record in the `i`-th slice of the sorted record list has left
    index `i`: this is the second assert of the Python loop
    (`assert k1 == i`). -/
theorem nearbyBlock_fst {D : Type} [LinearOrder D] (n i : ℕ) (hi : i < n)
    (dd : ℕ → ℕ → D) : ∀ e ∈ nearbyBlock n dd i, e.1 = i := by
  have hperm : (sortRecords (mkDistances n dd)).Perm (mkDistances n dd) :=
    sortRecords_perm (mkDistances n dd)
  have hsorted : List.Pairwise recLe (sortRecords (mkDistances n dd)) :=
    sortRecords_sorted (mkDistances n dd)
  have hfst : List.Pairwise (fun a b : ℕ × D × ℕ => a.1 ≤ b.1)
      (sortRecords (mkDistances n dd)) := by
    refine hsorted.imp ?_
    intro a b h
    unfold recLe at h
    rcases h with h | ⟨h, _⟩
    · exact Nat.le_of_lt h
    · exact Nat.le_of_eq h
  have hcl1 : ∀ a b : ℕ × D × ℕ, a.1 ≤ b.1 →
      decide (b.1 < i) = true → decide (a.1 < i) = true := by
    intro a b hab hb
    simp only [decide_eq_true_eq] at hb ⊢
    omega
  obtain ⟨htw, _⟩ := sorted_takeWhile_filter hcl1 hfst
  have hlen_tw : ((sortRecords (mkDistances n dd)).takeWhile
      (fun e => decide (e.1 < i))).length = (n - 1) * i := by
    rw [htw, ← List.countP_eq_length_filter, hperm.countP_eq,
      mkDistances_countP_lt n i (Nat.le_of_lt hi) dd]
  have hdrop : (sortRecords (mkDistances n dd)).drop ((n - 1) * i)
      = (sortRecords (mkDistances n dd)).dropWhile (fun e => decide (e.1 < i)) := by
    conv_lhs => rw [← List.takeWhile_append_dropWhile
      (p := fun e => decide (e.1 < i)) (l := sortRecords (mkDistances n dd))]
    rw [← hlen_tw, List.drop_left]
  set dw := (sortRecords (mkDistances n dd)).dropWhile
    (fun e => decide (e.1 < i)) with hdw_def
  have hdw_ge : ∀ e ∈ dw, i ≤ e.1 := by
    have h2 := (sorted_takeWhile_filter hcl1 hfst).2
    intro e he
    have h3 := h2 e he
    simp only [decide_eq_false_iff_not, Nat.not_lt] at h3
    exact h3
  have hdw_sorted : List.Pairwise (fun a b : ℕ × D × ℕ => a.1 ≤ b.1) dw :=
    List.Pairwise.sublist (List.dropWhile_sublist _) hfst
  have hdw_count : dw.countP (fun e => e.1 == i) = n - 1 := by
    have hsplit : (sortRecords (mkDistances n dd)).countP (fun e => e.1 == i)
        = ((sortRecords (mkDistances n dd)).takeWhile
            (fun e => decide (e.1 < i))).countP (fun e => e.1 == i)
          + dw.countP (fun e => e.1 == i) := by
      conv_lhs => rw [← List.takeWhile_append_dropWhile
        (p := fun e => decide (e.1 < i)) (l := sortRecords (mkDistances n dd))]
      rw [List.countP_append]
    have htw0 : ((sortRecords (mkDistances n dd)).takeWhile
        (fun e => decide (e.1 < i))).countP (fun e => e.1 == i) = 0 := by
      rw [List.countP_eq_zero]
      intro e he
      have h4 := List.mem_takeWhile_imp he
      simp only [decide_eq_true_eq] at h4
      simp only [beq_iff_eq]
      omega
    have hall : (sortRecords (mkDistances n dd)).countP (fun e => e.1 == i)
        = n - 1 := by
      rw [hperm.countP_eq, mkDistances_countP_fst n i hi dd]
    omega
  have hcl2 : ∀ a b : ℕ × D × ℕ, a.1 ≤ b.1 →
      decide (b.1 ≤ i) = true → decide (a.1 ≤ i) = true := by
    intro a b hab hb
    simp only [decide_eq_true_eq] at hb ⊢
    omega
  obtain ⟨htw2, _⟩ := sorted_takeWhile_filter hcl2 hdw_sorted
  have hlen_tw2 : (dw.takeWhile (fun e => decide (e.1 ≤ i))).length = n - 1 := by
    rw [htw2, ← List.countP_eq_length_filter]
    rw [List.countP_congr ?_]
    · exact hdw_count
    · intro e he
      have h5 := hdw_ge e he
      simp only [decide_eq_true_eq, beq_iff_eq]
      omega
  have htake : (nearbyBlock n dd i) = dw.takeWhile (fun e => decide (e.1 ≤ i)) := by
    unfold nearbyBlock
    rw [hdrop, ← hlen_tw2,
      ← List.prefix_iff_eq_take.mp (List.takeWhile_prefix _)]
  intro e he
  rw [htake] at he
  have h6 := List.mem_takeWhile_imp he
  simp only [decide_eq_true_eq] at h6
  have h7 := hdw_ge e ((List.takeWhile_prefix _).subset he)
  omega

/-- The `i`-th slice of the sorted record list has the full width
    `n - 1`. -/
theorem nearbyBlock_length {D : Type} [LinearOrder D] (n i : ℕ) (hi : i < n)
    (dd : ℕ → ℕ → D) : (nearbyBlock n dd i).length = n - 1 := by
  unfold nearbyBlock
  rw [List.length_take, List.length_drop,
    (sortRecords_perm (mkDistances n dd)).length_eq, mkDistances_length]
  have h1 : (n - 1) * i + (n - 1) ≤ n * (n - 1) := by
    have h2 : (n - 1) * (i + 1) ≤ (n - 1) * n :=
      Nat.mul_le_mul_left (n - 1) hi
    have h3 : (n - 1) * (i + 1) = (n - 1) * i + (n - 1) := by ring
    have h4 : (n - 1) * n = n * (n - 1) := Nat.mul_comm _ _
    omega
  omega

/-- Pointwise equal functions give equal `flatMap` results. -/
theorem flatMap_congr_mem {α β : Type} {l : List α} {f g : α → List β}
    (h : ∀ a ∈ l, f a = g a) : l.flatMap f = l.flatMap g := by
  induction l with
  | nil => rfl
  | cons x t ih =>
    rw [List.flatMap_cons, List.flatMap_cons, h x (List.mem_cons_self x t),
      ih (fun a ha => h a (List.mem_cons_of_mem x ha))]

/-- A `flatMap` over a range in which only index `i` contributes
    collapses to the contribution of `i`. -/
theorem flatMap_ite_single {α : Type} (n i : ℕ) (hi : i < n) (g : ℕ → List α) :
    ((List.range n).flatMap (fun i2 => if i2 = i then g i2 else [])) = g i := by
  induction n with
  | zero => omega
  | succ n ih =>
    rw [List.range_succ, List.flatMap_append]
    by_cases h : i = n
    · subst h
      have h1 : (List.range i).flatMap
          (fun i2 => if i2 = i then g i2 else []) = [] := by
        rw [List.eq_nil_iff_forall_not_mem]
        intro e he
        rw [List.mem_flatMap] at he
        obtain ⟨i2, hi2, he⟩ := he
        rw [List.mem_range] at hi2
        rw [if_neg (by omega)] at he
        exact absurd he (List.not_mem_nil e)
      rw [h1]
      simp
    · have h2 : i < n := by omega
      have h3 : ¬(n = i) := fun hh => h hh.symm
      rw [ih h2]
      simp [h3]

/-- The records `do_nearby_calls` delivers to left-hand index `i` are
    exactly what the block loop delivers on the `i`-th slice. -/
theorem do_nearby_filter_block {D : Type} [LinearOrder D] (n : ℕ)
    (dd : ℕ → ℕ → D) (f : ℕ → ℕ → D → Bool) (i : ℕ) (hi : i < n) :
    (do_nearby_calls n dd f).filter (fun e => e.1 == i)
      = deliverBlock f (nearbyBlock n dd i) := by
  unfold do_nearby_calls
  rw [List.filter_flatMap]
  have hterm : ∀ i2 ∈ List.range n,
      (deliverBlock f (nearbyBlock n dd i2)).filter (fun e => e.1 == i)
        = if i2 = i then deliverBlock f (nearbyBlock n dd i2) else [] := by
    intro i2 hi2
    rw [List.mem_range] at hi2
    by_cases h : i2 = i
    · subst h
      rw [if_pos rfl, List.filter_eq_self]
      intro e he
      have h1 := nearbyBlock_fst n i2 hi2 dd e
        (deliverBlock_subset f (nearbyBlock n dd i2) e he)
      simp [h1]
    · rw [if_neg h, List.filter_eq_nil_iff]
      intro e he
      have h1 := nearbyBlock_fst n i2 hi2 dd e
        (deliverBlock_subset f (nearbyBlock n dd i2) e he)
      simp [h1, h]
  rw [flatMap_congr_mem hterm,
    flatMap_ite_single n i hi (fun i2 => deliverBlock f (nearbyBlock n dd i2))]

/-- C3: if the `onNearby` callback of left-hand entity `i` returns
    `false` on candidate `c` (the record after the all-`true` prefix
    `pre` of its block), then entity `i` is delivered exactly
    `pre ++ [c]` — nothing after `c` — while any other left-hand entity
    whose callback keeps returning `true` is delivered its full block of
    `n - 1` candidates. -/
theorem dispatch_early_termination :
    ∀ (D : Type) [LinearOrder D] (n : ℕ) (dd : ℕ → ℕ → D)
      (f : ℕ → ℕ → D → Bool) (i : ℕ), i < n →
      ∀ (pre : List (ℕ × D × ℕ)) (c : ℕ × D × ℕ) (rest : List (ℕ × D × ℕ)),
        nearbyBlock n dd i = pre ++ c :: rest →
        (∀ e ∈ pre, f e.1 e.2.2 e.2.1 = true) → f c.1 c.2.2 c.2.1 = false →
        ((do_nearby_calls n dd f).filter (fun e => e.1 == i) = pre ++ [c] ∧
          ∀ i2, i2 < n → i2 ≠ i →
            (∀ e ∈ nearbyBlock n dd i2, f e.1 e.2.2 e.2.1 = true) →
            (do_nearby_calls n dd f).filter (fun e => e.1 == i2)
                = nearbyBlock n dd i2 ∧
            (nearbyBlock n dd i2).length = n - 1) := by
  intro D _ n dd f i hi pre c rest hblock hpre hc
  constructor
  · rw [do_nearby_filter_block n dd f i hi, hblock,
      deliverBlock_break f pre c rest hpre hc]
  · intro i2 hi2 _ hall
    exact ⟨by rw [do_nearby_filter_block n dd f i2 hi2,
        deliverBlock_all_true f _ hall],
      nearbyBlock_length n i2 hi2 dd⟩

/-- Witness for C3 with two entities and a callback that terminates at
    once: the left-hand block of entity 0 is cut to its first record. -/
theorem dispatch_early_termination_witness :
    (do_nearby_calls 2 (fun i j => i + j) (fun _ _ _ => false)).filter
        (fun e => e.1 == 0) = [] ++ [((0 : ℕ), (1 : ℕ), (1 : ℕ))] :=
  (dispatch_early_termination ℕ 2 (fun i j => i + j) (fun _ _ _ => false) 0
    (by decide) [] (0, 1, 1) [] (by decide) (by simp) rfl).1

end ThreeShapes
